import Mathlib

/-!
Verification of the event-replay bulk-import pipeline
(`src/event-replay/event-import-preorg.ts`).

Each definition is a shallow embedding of the correspondingly named source
function.  Asynchronous calls are modelled by explicit state passing or by
operation traces; machine integers by `Nat`; fallible parsing by `Option` /
`Except`.  Functions imported from modules that are not part of the visible
sources are modelled from the specification and marked as such in their doc
comments.
-/

namespace EventImportPreorg

/-! ## Batch accumulator (`createBatchInserter`) -/

/-- Modelled from the spec: `batchIterate` is imported from `../helpers`, whose
source is not visible.  The spec says the over-full buffer is split "into
successive chunks of size N"; the caller (`createBatchInserter.push`) clears the
whole buffer right after iterating, so the iterator must yield every element,
the final chunk holding the remainder of fewer than `batchSize` items.  The
recursion is driven by a fuel counter (instantiated with the list length) so
that the definition is structural. -/
def batchIterateGo {T : Type} (batchSize : Nat) : Nat → List T → List (List T)
  | _, [] => []
  | 0, items => [items]
  | fuel + 1, items => items.take batchSize :: batchIterateGo batchSize fuel (items.drop batchSize)

/-- Chunks of size `batchSize` covering `items` in order, last chunk possibly
shorter.  See `batchIterateGo`. -/
def batchIterate {T : Type} (batchSize : Nat) (items : List T) : List (List T) :=
  batchIterateGo batchSize items.length items

/-- State of one `createBatchInserter` accumulator: the internal `entryBuffer`
and, in order, the batches that have been passed to `insertFn` so far (the
observable effect of the awaited `insertFn` calls). -/
structure BatchState (T : Type) where
  entryBuffer : List T
  calls : List (List T)
deriving Repr, DecidableEq

/-- `createBatchInserter.push`: append the entries to the buffer; when the
buffer length reaches the batch size exactly, pass the whole buffer to
`insertFn` and clear it; when it exceeds the batch size, pass it chunk by chunk
(`batchIterate`) and clear it; otherwise leave it buffered. -/
def push {T : Type} (batchSize : Nat) (s : BatchState T) (entries : List T) : BatchState T :=
  let buf := s.entryBuffer ++ entries
  if buf.length = batchSize then
    { entryBuffer := [], calls := s.calls ++ [buf] }
  else if buf.length > batchSize then
    { entryBuffer := [], calls := s.calls ++ batchIterate batchSize buf }
  else
    { entryBuffer := buf, calls := s.calls }

/-- `createBatchInserter.flush`: when the buffer is non-empty, pass it whole to
`insertFn`.  The source does not clear the buffer afterwards. -/
def flush {T : Type} (s : BatchState T) : BatchState T :=
  if s.entryBuffer.isEmpty then s
  else { entryBuffer := s.entryBuffer, calls := s.calls ++ [s.entryBuffer] }

/-- A fresh accumulator as returned by `createBatchInserter`. -/
def initBatch (T : Type) : BatchState T :=
  { entryBuffer := [], calls := [] }

/-- A sequence of `push` calls on a fresh accumulator. -/
def runPushes {T : Type} (batchSize : Nat) (pushes : List (List T)) : BatchState T :=
  pushes.foldl (push batchSize) (initBatch T)

theorem batchIterateGo_flatten {T : Type} (N : Nat) (hN : 1 ≤ N) :
    ∀ (fuel : Nat) (items : List T), items.length ≤ fuel →
      (batchIterateGo N fuel items).flatten = items := by
  intro fuel
  induction fuel with
  | zero =>
    intro items h
    have : items = [] := List.eq_nil_of_length_eq_zero (Nat.le_zero.mp h)
    subst this
    rfl
  | succ n ih =>
    intro items h
    cases items with
    | nil => rfl
    | cons x xs =>
      simp only [batchIterateGo, List.flatten_cons]
      rw [ih]
      · exact List.take_append_drop N (x :: xs)
      · simp only [List.length_drop]
        have hlen : (x :: xs).length ≤ n + 1 := h
        omega

theorem batchIterateGo_ne_nil {T : Type} (N : Nat) (hN : 1 ≤ N) :
    ∀ (fuel : Nat) (items : List T), items.length ≤ fuel →
      ∀ b ∈ batchIterateGo N fuel items, b ≠ [] := by
  intro fuel
  induction fuel with
  | zero =>
    intro items h b hb
    have : items = [] := List.eq_nil_of_length_eq_zero (Nat.le_zero.mp h)
    subst this
    simp [batchIterateGo] at hb
  | succ n ih =>
    intro items h b hb
    cases items with
    | nil => simp [batchIterateGo] at hb
    | cons x xs =>
      simp only [batchIterateGo, List.mem_cons] at hb
      rcases hb with hb | hb
      · subst hb
        cases N with
        | zero => omega
        | succ m => simp
      · exact ih _ (by simp only [List.length_drop]; have : (x :: xs).length ≤ n + 1 := h; omega) b hb

theorem batchIterate_flatten {T : Type} (N : Nat) (hN : 1 ≤ N) (items : List T) :
    (batchIterate N items).flatten = items :=
  batchIterateGo_flatten N hN items.length items le_rfl

theorem batchIterate_ne_nil {T : Type} (N : Nat) (hN : 1 ≤ N) (items : List T) :
    ∀ b ∈ batchIterate N items, b ≠ [] :=
  batchIterateGo_ne_nil N hN items.length items le_rfl

/-- Invariant maintained by `push`: the flushed batches followed by the buffer
are exactly the items pushed so far, no batch is empty, and the buffer holds
fewer than `batchSize` items. -/
def goodState {T : Type} (N : Nat) (pushed : List T) (s : BatchState T) : Prop :=
  s.calls.flatten ++ s.entryBuffer = pushed
  ∧ (∀ b ∈ s.calls, b ≠ [])
  ∧ s.entryBuffer.length < N

theorem push_good {T : Type} {N : Nat} (hN : 1 ≤ N) {pushed : List T} {s : BatchState T}
    (hs : goodState N pushed s) (e : List T) :
    goodState N (pushed ++ e) (push N s e) := by
  obtain ⟨hflat, hne, hlen⟩ := hs
  unfold push goodState
  by_cases h1 : (s.entryBuffer ++ e).length = N
  · simp only [h1, if_true]
    refine ⟨?_, ?_, by simpa using hN⟩
    · simp [← hflat, List.append_assoc]
    · intro b hb
      rcases List.mem_append.mp hb with hb | hb
      · exact hne b hb
      · simp only [List.mem_singleton] at hb
        subst hb
        intro hnil
        rw [hnil] at h1
        simp at h1
        omega
  · by_cases h2 : (s.entryBuffer ++ e).length > N
    · simp only [h1, h2, if_false, if_true]
      refine ⟨?_, ?_, by simpa using hN⟩
      · rw [List.flatten_append, batchIterate_flatten N hN]
        simp [← hflat, List.append_assoc]
      · intro b hb
        rcases List.mem_append.mp hb with hb | hb
        · exact hne b hb
        · exact batchIterate_ne_nil N hN _ b hb
    · simp only [h1, h2, if_false]
      refine ⟨by simp [← hflat, List.append_assoc], hne, by omega⟩

theorem runPushes_good {T : Type} {N : Nat} (hN : 1 ≤ N) (pushes : List (List T)) :
    goodState N pushes.flatten (runPushes N pushes) := by
  suffices h : ∀ (rest : List (List T)) (pushed : List T) (s : BatchState T),
      goodState N pushed s →
      goodState N (pushed ++ rest.flatten) (rest.foldl (push N) s) by
    have := h pushes [] (initBatch T) ⟨rfl, by simp [initBatch], by simpa [initBatch] using hN⟩
    simpa [runPushes] using this
  intro rest
  induction rest with
  | nil => intro pushed s hs; simpa using hs
  | cons e es ih =>
    intro pushed s hs
    have := ih (pushed ++ e) (push N s e) (push_good hN hs e)
    simpa [List.append_assoc] using this

/-- Length of the flattened push list when every push holds a single item. -/
theorem flatten_length_of_singles {T : Type} (l : List (List T)) (h : ∀ p ∈ l, p.length = 1) :
    l.flatten.length = l.length := by
  induction l with
  | nil => rfl
  | cons x xs ih =>
    simp only [List.flatten_cons, List.length_append, List.length_cons]
    rw [h x (by simp), ih (fun p hp => h p (by simp [hp]))]
    omega

/-- When every push call pushes one item, every completed batch has exactly
`N` items and the batch count and buffer account for all pushed items. -/
theorem runPushes_singles {T : Type} {N : Nat} (hN : 1 ≤ N) (pushes : List (List T))
    (hsingle : ∀ p ∈ pushes, p.length = 1) :
    (∀ b ∈ (runPushes N pushes).calls, b.length = N)
    ∧ N * (runPushes N pushes).calls.length + (runPushes N pushes).entryBuffer.length
        = pushes.length
    ∧ (runPushes N pushes).entryBuffer.length < N := by
  suffices h : ∀ (rest : List (List T)) (s : BatchState T) (K : Nat),
      (∀ p ∈ rest, p.length = 1) →
      (∀ b ∈ s.calls, b.length = N) →
      N * s.calls.length + s.entryBuffer.length = K →
      s.entryBuffer.length < N →
      (∀ b ∈ (rest.foldl (push N) s).calls, b.length = N)
      ∧ N * (rest.foldl (push N) s).calls.length + (rest.foldl (push N) s).entryBuffer.length
          = K + rest.length
      ∧ (rest.foldl (push N) s).entryBuffer.length < N by
    have := h pushes (initBatch T) 0 hsingle (by simp [initBatch]) (by simp [initBatch])
      (by simpa [initBatch] using hN)
    simpa [runPushes] using this
  intro rest
  induction rest with
  | nil =>
    intro s K _ h1 h2 h3
    exact ⟨h1, by simpa using h2, h3⟩
  | cons e es ih =>
    intro s K hsg h1 h2 h3
    have he : e.length = 1 := hsg e (by simp)
    have hbuf : (s.entryBuffer ++ e).length = s.entryBuffer.length + 1 := by
      simp [he]
    simp only [List.foldl_cons]
    by_cases hcase : (s.entryBuffer ++ e).length = N
    · have hp : push N s e = { entryBuffer := [], calls := s.calls ++ [s.entryBuffer ++ e] } := by
        simp [push, hcase]
      rw [hp]
      have := ih { entryBuffer := [], calls := s.calls ++ [s.entryBuffer ++ e] } (K + 1)
        (fun p hp => hsg p (by simp [hp]))
        (by
          intro b hb
          rcases List.mem_append.mp hb with hb | hb
          · exact h1 b hb
          · simp only [List.mem_singleton] at hb
            subst hb
            exact hcase)
        (by simp [Nat.mul_add]; omega)
        (by simpa using hN)
      simpa [Nat.add_assoc, Nat.add_comm, Nat.add_left_comm] using this
    · have hlt : (s.entryBuffer ++ e).length < N := by omega
      have hp : push N s e = { entryBuffer := s.entryBuffer ++ e, calls := s.calls } := by
        simp only [push]
        rw [if_neg hcase, if_neg (by omega : ¬ (s.entryBuffer ++ e).length > N)]
      rw [hp]
      have := ih { entryBuffer := s.entryBuffer ++ e, calls := s.calls } (K + 1)
        (fun p hp => hsg p (by simp [hp]))
        h1
        (by simp; omega)
        hlt
      simpa [Nat.add_assoc, Nat.add_comm, Nat.add_left_comm] using this

/-- C1 (amended).  After any sequence of `push` calls and a final `flush` on a
fresh `createBatchInserter` accumulator with batch size `N ≥ 1`: the
concatenation of the batches passed to the insert function equals the pushed
items in their original order, the insert function is never invoked with an
empty batch, and — provided every `push` call pushed a single item — the insert
function is invoked exactly `ceil(K/N)` times for `K` total items.  (The exact
`ceil(K/N)` count of the original claim fails for bulk pushes that overflow the
buffer; see the counterexample.) -/
theorem createBatchInserter_order_nonempty_count {T : Type} (N : Nat) (hN : 1 ≤ N)
    (pushes : List (List T)) :
    (flush (runPushes N pushes)).calls.flatten = pushes.flatten
    ∧ (∀ b ∈ (flush (runPushes N pushes)).calls, b ≠ [])
    ∧ ((∀ p ∈ pushes, p.length = 1) →
        (flush (runPushes N pushes)).calls.length = (pushes.flatten.length + N - 1) / N) := by
  obtain ⟨hflat, hne, hlen⟩ := runPushes_good hN pushes
  set s := runPushes N pushes with hs
  by_cases hemp : s.entryBuffer.isEmpty
  · have hbuf : s.entryBuffer = [] := List.isEmpty_iff.mp hemp
    have hfl : flush s = s := by simp [flush, hemp]
    rw [hfl]
    refine ⟨by simpa [hbuf] using hflat, hne, ?_⟩
    intro hsingle
    obtain ⟨hall, hcount, _⟩ := runPushes_singles hN pushes hsingle
    rw [← hs] at hall hcount
    rw [hbuf] at hcount
    simp only [List.length_nil, Nat.add_zero] at hcount
    rw [flatten_length_of_singles pushes hsingle, ← hcount]
    have h : N * s.calls.length + N - 1 = N * s.calls.length + (N - 1) := by omega
    rw [h, Nat.mul_add_div (by omega)]
    simp [Nat.div_eq_of_lt (by omega : N - 1 < N)]
  · have hbuf : s.entryBuffer ≠ [] := by
      intro h
      rw [h] at hemp
      simp at hemp
    have hfl : flush s = { entryBuffer := s.entryBuffer, calls := s.calls ++ [s.entryBuffer] } := by
      simp [flush, hemp]
    rw [hfl]
    refine ⟨by simpa using hflat, ?_, ?_⟩
    · intro b hb
      rcases List.mem_append.mp hb with hb | hb
      · exact hne b hb
      · simp only [List.mem_singleton] at hb
        subst hb
        exact hbuf
    · intro hsingle
      obtain ⟨hall, hcount, hlt⟩ := runPushes_singles hN pushes hsingle
      rw [← hs] at hall hcount hlt
      have hr1 : 1 ≤ s.entryBuffer.length := List.length_pos.mpr hbuf
      rw [flatten_length_of_singles pushes hsingle, ← hcount]
      simp only [List.length_append, List.length_singleton]
      have h : N * s.calls.length + s.entryBuffer.length + N - 1
          = N * s.calls.length + (s.entryBuffer.length + N - 1) := by omega
      rw [h, Nat.mul_add_div (by omega)]
      have hdiv : (s.entryBuffer.length + N - 1) / N = 1 :=
        Nat.div_eq_of_lt_le (by omega) (by omega)
      omega

/-- C1 witness: three singleton pushes with batch size 2 give two insert
calls, `ceil(3/2) = 2`, order preserved, no empty batch. -/
theorem createBatchInserter_order_nonempty_count_witness :
    (flush (runPushes 2 [[0], [1], [2]])).calls.flatten = [[0], [1], [2]].flatten
    ∧ (∀ b ∈ (flush (runPushes 2 [[0], [1], [2]])).calls, b ≠ [])
    ∧ (flush (runPushes 2 [[0], [1], [2]])).calls.length
        = (([[0], [1], [2]].flatten : List Nat).length + 2 - 1) / 2 := by
  have h := createBatchInserter_order_nonempty_count 2 (by decide) [[0], [1], [2]]
  exact ⟨h.1, h.2.1, h.2.2 (by decide)⟩

/-- C1 counterexample: with batch size `N = 2`, pushing `[0,1,2]` in one bulk
push and then `[3]`, followed by the final flush, yields three insert calls
(`[0,1]`, `[2]`, `[3]`) although the total item count is `K = 4` and
`ceil(K/N) = 2`.  The bulk push flushes the whole overflowed buffer, remainder
included, so the claimed exact `ceil(K/N)` invocation count is false. -/
theorem createBatchInserter_count_counterexample :
    (flush (runPushes 2 [[0, 1, 2], [3]])).calls = [[0, 1], [2], [3]]
    ∧ ([[0, 1, 2], [3]].flatten : List Nat).length = 4
    ∧ (4 + 2 - 1) / 2 = 2
    ∧ ¬ (flush (runPushes 2 [[0, 1, 2], [3]])).calls.length = (4 + 2 - 1) / 2 := by
  refine ⟨by decide, by decide, by decide, by decide⟩

/-- C2 (amended).  For batch size `N ≥ 1` and any `push` call: the pushed
entries are appended to the buffer; when the combined buffer length equals `N`
exactly, the whole buffer is passed to the insert function and emptied; when it
exceeds `N`, the whole buffer — the final remainder chunk of fewer than `N`
items included — is passed to the insert function in successive chunks and the
buffer is emptied (nothing stays buffered); otherwise the buffer keeps the
appended items and no insert call is made. -/
theorem createBatchInserter_push_cases {T : Type} (N : Nat) (hN : 1 ≤ N)
    (s : BatchState T) (e : List T) :
    ((s.entryBuffer ++ e).length = N →
      push N s e = { entryBuffer := [], calls := s.calls ++ [s.entryBuffer ++ e] })
    ∧ ((s.entryBuffer ++ e).length > N →
      (push N s e).entryBuffer = []
      ∧ (push N s e).calls = s.calls ++ batchIterate N (s.entryBuffer ++ e)
      ∧ (batchIterate N (s.entryBuffer ++ e)).flatten = s.entryBuffer ++ e
      ∧ ∀ b ∈ batchIterate N (s.entryBuffer ++ e), b ≠ [])
    ∧ ((s.entryBuffer ++ e).length < N →
      push N s e = { entryBuffer := s.entryBuffer ++ e, calls := s.calls }) := by
  refine ⟨?_, ?_, ?_⟩
  · intro h
    simp only [push]
    rw [if_pos h]
  · intro h
    have hp : push N s e
        = { entryBuffer := [], calls := s.calls ++ batchIterate N (s.entryBuffer ++ e) } := by
      simp only [push]
      rw [if_neg (by omega), if_pos h]
    rw [hp]
    exact ⟨rfl, rfl, batchIterate_flatten N hN _, batchIterate_ne_nil N hN _⟩
  · intro h
    simp only [push]
    rw [if_neg (by omega), if_neg (by omega)]

/-- C2 witness: pushing `[0,1]` onto an empty accumulator with batch size 2
flushes `[0,1]` immediately and empties the buffer; pushing a single item
leaves it buffered. -/
theorem createBatchInserter_push_cases_witness :
    push 2 (initBatch Nat) [0, 1] = { entryBuffer := [], calls := [[0, 1]] }
    ∧ push 2 (initBatch Nat) [0] = { entryBuffer := [0], calls := [] } := by
  constructor
  · exact (createBatchInserter_push_cases 2 (by decide) (initBatch Nat) [0, 1]).1 (by decide)
  · exact (createBatchInserter_push_cases 2 (by decide) (initBatch Nat) [0]).2.2 (by decide)

/-- C2 counterexample: with batch size 2, a bulk push of `[0,1,2]` onto an
empty accumulator passes both the full chunk `[0,1]` and the remainder `[2]` to
the insert function and leaves the buffer empty — the claim says the remainder
`[2]` stays in the buffer and is not passed by that push call. -/
theorem createBatchInserter_push_remainder_counterexample :
    (push 2 (initBatch Nat) [0, 1, 2]).calls = [[0, 1], [2]]
    ∧ (push 2 (initBatch Nat) [0, 1, 2]).entryBuffer = []
    ∧ ¬ (push 2 (initBatch Nat) [0, 1, 2]).entryBuffer = [2] := by
  refine ⟨by decide, by decide, by decide⟩

/-- C3 (amended).  `flush` on a non-empty buffer passes the full buffer
contents to the insert function exactly once but does not clear the buffer;
`flush` on an empty buffer makes no insert call.  Consequently two consecutive
`flush` calls with no intervening `push` on a non-empty buffer invoke the
insert function twice, each time with the same full contents — `flush` is not
idempotent. -/
theorem createBatchInserter_flush_cases {T : Type} (s : BatchState T) :
    (s.entryBuffer = [] → flush s = s)
    ∧ (s.entryBuffer ≠ [] →
      (flush s).calls = s.calls ++ [s.entryBuffer]
      ∧ (flush s).entryBuffer = s.entryBuffer
      ∧ (flush (flush s)).calls = s.calls ++ [s.entryBuffer] ++ [s.entryBuffer]) := by
  constructor
  · intro h
    simp [flush, h]
  · intro h
    have hemp : s.entryBuffer.isEmpty = false := by
      simpa [List.isEmpty_iff] using h
    have h1 : flush s = { entryBuffer := s.entryBuffer, calls := s.calls ++ [s.entryBuffer] } := by
      simp [flush, hemp]
    refine ⟨by rw [h1], by rw [h1], ?_⟩
    rw [h1]
    simp [flush, hemp]

/-- C3 witness: with `[5]` buffered, one flush emits `[5]` and keeps the
buffer; a double flush emits `[5]` twice. -/
theorem createBatchInserter_flush_cases_witness :
    (flush { entryBuffer := [5], calls := ([] : List (List Nat)) }).calls = [[5]]
    ∧ (flush { entryBuffer := [5], calls := ([] : List (List Nat)) }).entryBuffer = [5]
    ∧ (flush (flush { entryBuffer := [5], calls := ([] : List (List Nat)) })).calls
        = [[5], [5]] := by
  have h := (createBatchInserter_flush_cases
    { entryBuffer := [5], calls := ([] : List (List Nat)) }).2 (by decide)
  exact ⟨h.1, h.2.1, h.2.2⟩

/-- C3 counterexample: with `[0]` buffered, `flush` leaves the buffer non-empty
(the source never clears it), and a second `flush` with no intervening `push`
invokes the insert function a second time with the same batch — contradicting
both "leaves the buffer empty afterwards" and "two consecutive flush() calls
invoke the insert function at most once". -/
theorem createBatchInserter_flush_counterexample :
    (flush { entryBuffer := [0], calls := ([] : List (List Nat)) }).entryBuffer = [0]
    ∧ ¬ (flush { entryBuffer := [0], calls := ([] : List (List Nat)) }).entryBuffer = []
    ∧ (flush (flush { entryBuffer := [0], calls := ([] : List (List Nat)) })).calls.length
        = 2 := by
  refine ⟨by decide, by decide, by decide⟩

/-! ## Principal linking rows (`processStxEvents` inside `insertNewBlockEvents`) -/

/-- The fields of a `DbTx` transaction record consulted by `processStxEvents`.
Nullable columns are `Option String`; the JavaScript code filters them with
`!!p`, under which both `null`/`undefined` and the empty string are falsy. -/
structure DbTx where
  tx_id : String
  index_block_hash : String
  microblock_hash : String
  block_height : Nat
  microblock_sequence : Nat
  tx_index : Nat
  canonical : Bool
  microblock_canonical : Bool
  sender_address : String
  token_transfer_recipient_address : Option String
  contract_call_contract_id : Option String
  smart_contract_contract_id : Option String
deriving Repr, DecidableEq

/-- The sender/recipient fields of one STX event of a transaction. -/
structure DbStxEvent where
  sender : Option String
  recipient : Option String
deriving Repr, DecidableEq

/-- The part of `DataStoreTxEventData` consulted by `processStxEvents`. -/
structure DataStoreTxEventData where
  tx : DbTx
  stxEvents : List DbStxEvent
deriving Repr, DecidableEq

/-- One row pushed to the `principal_stx_txs` batch inserter. -/
structure PrincipalStxTxsInsertValues where
  principal : String
  tx_id : String
  block_height : Nat
  index_block_hash : String
  microblock_hash : String
  microblock_sequence : Nat
  tx_index : Nat
  canonical : Bool
  microblock_canonical : Bool
deriving Repr, DecidableEq

/-- JavaScript `!!p` filtering of a nullable string: keeps only present,
non-empty values. -/
def truthyString : Option String → Option String
  | none => none
  | some s => if s.isEmpty then none else some s

/-- Adding an element to a JavaScript `Set<string>`: insertion-ordered,
duplicates ignored. -/
def setAdd (l : List String) (s : String) : List String :=
  if s ∈ l then l else l ++ [s]

/-- The four transaction-level principal candidates,
`[sender_address, token_transfer_recipient_address, contract_call_contract_id,
smart_contract_contract_id].filter(p => !!p)`. -/
def candidateTxFields (tx : DbTx) : List String :=
  [some tx.sender_address, tx.token_transfer_recipient_address,
   tx.contract_call_contract_id, tx.smart_contract_contract_id].filterMap truthyString

/-- One iteration of the `entry.stxEvents.forEach` loop of `processStxEvents`:
add the event sender and recipient to the `principals` set when present and
non-empty. -/
def stxStep (acc : List String) (ev : DbStxEvent) : List String :=
  let acc1 := match ev.sender with
    | some s => if s.isEmpty then acc else setAdd acc s
    | none => acc
  match ev.recipient with
    | some r => if r.isEmpty then acc1 else setAdd acc1 r
    | none => acc1

/-- The `principals` set built by `processStxEvents`: the truthy transaction
fields, then every truthy STX-event sender and recipient, insertion-ordered
and deduplicated. -/
def txPrincipals (entry : DataStoreTxEventData) : List String :=
  entry.stxEvents.foldl stxStep ((candidateTxFields entry.tx).foldl setAdd [])

/-- The `contraintKey` string of the source (named as spelled there): the
columns of the unique constraint joined with commas. -/
def contraintKey (principal : String) (tx : DbTx) : String :=
  principal ++ "," ++ tx.tx_id ++ "," ++ tx.index_block_hash ++ "," ++ tx.microblock_hash

/-- The row pushed for one principal of one transaction. -/
def mkPrincipalRow (principal : String) (tx : DbTx) : PrincipalStxTxsInsertValues :=
  { principal := principal
    tx_id := tx.tx_id
    block_height := tx.block_height
    index_block_hash := tx.index_block_hash
    microblock_hash := tx.microblock_hash
    microblock_sequence := tx.microblock_sequence
    tx_index := tx.tx_index
    canonical := tx.canonical
    microblock_canonical := tx.microblock_canonical }

/-- The `push` closure of `processStxEvents`: skip the principal when its
constraint key is already in `alreadyInsertedRowKeys`, otherwise record the
key and append the row. -/
def pushPrincipal (tx : DbTx) (acc : List String × List PrincipalStxTxsInsertValues)
    (principal : String) : List String × List PrincipalStxTxsInsertValues :=
  let key := contraintKey principal tx
  if key ∈ acc.1 then acc
  else (acc.1 ++ [key], acc.2 ++ [mkPrincipalRow principal tx])

/-- `processStxEvents`: the list of rows pushed to the `principal_stx_txs`
batch inserter for one transaction entry.  A fresh, empty
`alreadyInsertedRowKeys` set is created for each invocation. -/
def processStxEvents (entry : DataStoreTxEventData) : List PrincipalStxTxsInsertValues :=
  ((txPrincipals entry).foldl (pushPrincipal entry.tx) ([], [])).2

/-- The rows pushed while processing the transactions of one `/new_block`
event, in stream order (`processStxEvents` is called once per entry). -/
def blockPrincipalRows (txs : List DataStoreTxEventData) : List PrincipalStxTxsInsertValues :=
  txs.foldl (fun acc entry => acc ++ processStxEvents entry) []

theorem setAdd_mem (l : List String) (s a : String) :
    a ∈ setAdd l s ↔ a ∈ l ∨ a = s := by
  unfold setAdd
  by_cases h : s ∈ l
  · simp only [h, if_true]
    constructor
    · exact Or.inl
    · rintro (ha | rfl)
      · exact ha
      · exact h
  · simp [h]

theorem setAdd_nodup (l : List String) (s : String) (h : l.Nodup) : (setAdd l s).Nodup := by
  unfold setAdd
  by_cases hs : s ∈ l
  · simpa [hs]
  · simp only [hs, if_false]
    exact List.Nodup.append h (List.nodup_singleton s) (by simpa using hs)

theorem foldl_setAdd_nodup (xs : List String) :
    ∀ l : List String, l.Nodup → (xs.foldl setAdd l).Nodup := by
  induction xs with
  | nil => intro l h; exact h
  | cons x rest ih =>
    intro l h
    exact ih (setAdd l x) (setAdd_nodup l x h)

theorem stxStep_nodup (acc : List String) (ev : DbStxEvent) (h : acc.Nodup) :
    (stxStep acc ev).Nodup := by
  rcases ev with ⟨evs, evr⟩
  unfold stxStep
  rcases evs with _ | s <;> rcases evr with _ | r
  · exact h
  · simp only
    by_cases hr : r.isEmpty <;> simp [hr, h, setAdd_nodup]
  · simp only
    by_cases hs : s.isEmpty <;> simp [hs, h, setAdd_nodup]
  · simp only
    by_cases hs : s.isEmpty <;> by_cases hr : r.isEmpty <;>
      simp [hs, hr, h, setAdd_nodup]

theorem foldl_stxStep_nodup (evs : List DbStxEvent) :
    ∀ l : List String, l.Nodup → (evs.foldl stxStep l).Nodup := by
  induction evs with
  | nil => intro l h; exact h
  | cons ev rest ih =>
    intro l h
    exact ih (stxStep l ev) (stxStep_nodup l ev h)

theorem txPrincipals_nodup (entry : DataStoreTxEventData) : (txPrincipals entry).Nodup :=
  foldl_stxStep_nodup entry.stxEvents _
    (foldl_setAdd_nodup (candidateTxFields entry.tx) [] List.nodup_nil)

theorem contraintKey_inj (tx : DbTx) {p1 p2 : String}
    (h : contraintKey p1 tx = contraintKey p2 tx) : p1 = p2 := by
  unfold contraintKey at h
  have hd := congrArg String.data h
  simp only [String.data_append] at hd
  apply String.ext
  have h1 := List.append_cancel_right hd
  have h2 := List.append_cancel_right h1
  have h3 := List.append_cancel_right h2
  have h4 := List.append_cancel_right h3
  have h5 := List.append_cancel_right h4
  exact List.append_cancel_right h5

theorem foldl_pushPrincipal_eq (tx : DbTx) (ps : List String) :
    ∀ (keys : List String) (vals : List PrincipalStxTxsInsertValues),
      ps.Nodup → (∀ p ∈ ps, contraintKey p tx ∉ keys) →
      ps.foldl (pushPrincipal tx) (keys, vals)
        = (keys ++ ps.map (fun p => contraintKey p tx),
           vals ++ ps.map (fun p => mkPrincipalRow p tx)) := by
  induction ps with
  | nil => intro keys vals _ _; simp
  | cons p rest ih =>
    intro keys vals hnd hnotin
    have hkey : contraintKey p tx ∉ keys := hnotin p (by simp)
    have hstep : pushPrincipal tx (keys, vals) p
        = (keys ++ [contraintKey p tx], vals ++ [mkPrincipalRow p tx]) := by
      simp [pushPrincipal, hkey]
    simp only [List.foldl_cons, hstep]
    rw [ih]
    · simp
    · exact (List.nodup_cons.mp hnd).2
    · intro q hq
      simp only [List.mem_append, List.mem_singleton]
      push_neg
      refine ⟨hnotin q (by simp [hq]), ?_⟩
      intro heq
      have hqp : q = p := contraintKey_inj tx heq
      subst hqp
      exact absurd hq (List.nodup_cons.mp hnd).1

theorem processStxEvents_eq (entry : DataStoreTxEventData) :
    processStxEvents entry = (txPrincipals entry).map (fun p => mkPrincipalRow p entry.tx) := by
  unfold processStxEvents
  rw [foldl_pushPrincipal_eq entry.tx (txPrincipals entry) [] []
    (txPrincipals_nodup entry) (by simp)]
  simp

theorem mem_foldl_setAdd_of_mem (xs : List String) :
    ∀ (l : List String) (a : String), a ∈ l → a ∈ xs.foldl setAdd l := by
  induction xs with
  | nil => intro l a h; exact h
  | cons x rest ih =>
    intro l a h
    exact ih (setAdd l x) a ((setAdd_mem l x a).mpr (Or.inl h))


theorem mem_of_mem_foldl_setAdd (xs : List String) :
    ∀ (l : List String) (a : String), a ∈ xs → a ∈ xs.foldl setAdd l := by
  induction xs with
  | nil => intro l a h; simp at h
  | cons x rest ih =>
    intro l a h
    simp only [List.foldl_cons]
    rcases List.mem_cons.mp h with rfl | h
    · exact mem_foldl_setAdd_of_mem rest _ _ ((setAdd_mem l a a).mpr (Or.inr rfl))
    · exact ih (setAdd l x) a h

theorem mem_stxStep_of_mem (l : List String) (ev : DbStxEvent) (a : String) (h : a ∈ l) :
    a ∈ stxStep l ev := by
  rcases ev with ⟨_ | s, _ | r⟩ <;> dsimp only [stxStep] <;>
    first
      | exact h
      | (split_ifs <;> simp [setAdd_mem, h])

theorem mem_foldl_stxStep_of_mem (evs : List DbStxEvent) :
    ∀ (l : List String) (a : String), a ∈ l → a ∈ evs.foldl stxStep l := by
  induction evs with
  | nil => intro l a h; exact h
  | cons ev rest ih =>
    intro l a h
    exact ih (stxStep l ev) a (mem_stxStep_of_mem l ev a h)

theorem sender_mem_txPrincipals (entry : DataStoreTxEventData)
    (h : ¬ entry.tx.sender_address.isEmpty) :
    entry.tx.sender_address ∈ txPrincipals entry := by
  unfold txPrincipals
  apply mem_foldl_stxStep_of_mem
  apply mem_of_mem_foldl_setAdd
  simp [candidateTxFields, truthyString, h]

theorem filter_beq_length_of_nodup (l : List String) (hl : l.Nodup) (p : String) :
    (l.filter (fun q => q == p)).length = if p ∈ l then 1 else 0 := by
  induction l with
  | nil => simp
  | cons x rest ih =>
    obtain ⟨hx, hrest⟩ := List.nodup_cons.mp hl
    by_cases hxp : x = p
    · subst hxp
      simp [List.filter_cons, ih hrest, hx]
    · simp [List.filter_cons, ih hrest, hxp, List.mem_cons, Ne.symm hxp]

theorem processStxEvents_pairwise (entry : DataStoreTxEventData) :
    (processStxEvents entry).Pairwise (fun r1 r2 =>
      ¬ (r1.principal = r2.principal ∧ r1.tx_id = r2.tx_id
         ∧ r1.index_block_hash = r2.index_block_hash
         ∧ r1.microblock_hash = r2.microblock_hash)) := by
  rw [processStxEvents_eq, List.pairwise_map]
  apply List.Pairwise.imp ?_ (txPrincipals_nodup entry)
  intro a b hne hcon
  exact hne (by simpa [mkPrincipalRow] using hcon.1)

theorem processStxEvents_count (entry : DataStoreTxEventData) (p : String) :
    ((processStxEvents entry).filter (fun r => r.principal == p)).length
      = if p ∈ txPrincipals entry then 1 else 0 := by
  rw [processStxEvents_eq, List.filter_map]
  rw [List.length_map]
  have hfun : ((fun r : PrincipalStxTxsInsertValues => r.principal == p)
      ∘ fun q => mkPrincipalRow q entry.tx) = fun q => q == p := by
    funext q
    simp [mkPrincipalRow, Function.comp]
  rw [hfun, filter_beq_length_of_nodup _ (txPrincipals_nodup entry)]

/-- C4: in the new-blocks phase, `processStxEvents` produces exactly one
`principal_stx_txs` row per distinct `(principal, tx id, index block hash,
microblock hash)` tuple for the processed transaction: one row per distinct
candidate principal (the present, non-empty transaction-level fields and
STX-event senders/recipients collected in `txPrincipals`), no two rows sharing
the constraint tuple; in particular a non-empty address appearing both as the
transaction sender and as an STX-event recipient yields exactly one row. -/
theorem processStxEvents_one_row_per_tuple (entry : DataStoreTxEventData) :
    processStxEvents entry = (txPrincipals entry).map (fun p => mkPrincipalRow p entry.tx)
    ∧ (processStxEvents entry).Pairwise (fun r1 r2 =>
        ¬ (r1.principal = r2.principal ∧ r1.tx_id = r2.tx_id
           ∧ r1.index_block_hash = r2.index_block_hash
           ∧ r1.microblock_hash = r2.microblock_hash))
    ∧ (∀ p : String,
        ((processStxEvents entry).filter (fun r => r.principal == p)).length
          = if p ∈ txPrincipals entry then 1 else 0)
    ∧ (¬ entry.tx.sender_address.isEmpty →
        ((processStxEvents entry).filter
          (fun r => r.principal == entry.tx.sender_address)).length = 1) :=
  ⟨processStxEvents_eq entry, processStxEvents_pairwise entry, processStxEvents_count entry,
   fun h => by
    rw [processStxEvents_count entry, if_pos (sender_mem_txPrincipals entry h)]⟩

/-- A concrete transaction entry whose sender `"SP1"` also appears as an
STX-event recipient. -/
def exTxEntry : DataStoreTxEventData :=
  { tx := { tx_id := "0x01", index_block_hash := "0xaa", microblock_hash := "0xbb",
            block_height := 1, microblock_sequence := 0, tx_index := 0,
            canonical := true, microblock_canonical := true,
            sender_address := "SP1", token_transfer_recipient_address := none,
            contract_call_contract_id := none, smart_contract_contract_id := none },
    stxEvents := [{ sender := none, recipient := some "SP1" }] }

/-- C4 witness: on `exTxEntry` — sender `"SP1"` also an STX-event recipient —
exactly one row is produced for `"SP1"`. -/
theorem processStxEvents_one_row_per_tuple_witness :
    ((processStxEvents exTxEntry).filter
      (fun r => r.principal == exTxEntry.tx.sender_address)).length = 1 :=
  (processStxEvents_one_row_per_tuple exTxEntry).2.2.2 (by decide)

theorem blockRows_foldl (txs : List DataStoreTxEventData) :
    ∀ acc, txs.foldl (fun acc entry => acc ++ processStxEvents entry) acc
      = acc ++ (txs.map processStxEvents).flatten := by
  induction txs with
  | nil => intro acc; simp
  | cons e rest ih =>
    intro acc
    simp only [List.foldl_cons, List.map_cons, List.flatten_cons]
    rw [ih]
    simp [List.append_assoc]

/-- C5 (amended).  The `alreadyInsertedRowKeys` dedup set is scoped to one
transaction entry's processing, not to a whole block: `processStxEvents`
creates a fresh, empty set at each invocation (once per transaction), so each
entry's rows are produced independently of every previously processed entry
(no key carries over, within or across blocks), and within one entry no two
rows share the constraint tuple.  Duplicate tuples across distinct entries of
the same block are not deduplicated. -/
theorem dedupKeySet_transaction_scope (txs : List DataStoreTxEventData)
    (e : DataStoreTxEventData) :
    blockPrincipalRows txs = (txs.map processStxEvents).flatten
    ∧ blockPrincipalRows (txs ++ [e]) = blockPrincipalRows txs ++ processStxEvents e
    ∧ (processStxEvents e).Pairwise (fun r1 r2 =>
        ¬ (r1.principal = r2.principal ∧ r1.tx_id = r2.tx_id
           ∧ r1.index_block_hash = r2.index_block_hash
           ∧ r1.microblock_hash = r2.microblock_hash)) := by
  refine ⟨by simpa using blockRows_foldl txs [], ?_, processStxEvents_pairwise e⟩
  unfold blockPrincipalRows
  rw [blockRows_foldl txs [], blockRows_foldl (txs ++ [e]) []]
  simp

/-- C5 counterexample: a block whose record stream contains two transaction
entries with identical `(tx id, index block hash, microblock hash)` and the
same sender yields two identical linking rows — a key set scoped to the whole
block would have deduplicated the second, so the set is not block-scoped. -/
theorem dedupKeySet_block_scope_counterexample :
    blockPrincipalRows [exTxEntry, exTxEntry]
      = [mkPrincipalRow "SP1" exTxEntry.tx, mkPrincipalRow "SP1" exTxEntry.tx]
    ∧ ¬ (blockPrincipalRows [exTxEntry, exTxEntry]).Pairwise (fun r1 r2 =>
        ¬ (r1.principal = r2.principal ∧ r1.tx_id = r2.tx_id
           ∧ r1.index_block_hash = r2.index_block_hash
           ∧ r1.microblock_hash = r2.microblock_hash)) := by
  refine ⟨by decide, by decide⟩

/-! ## Burn-block phase (`insertNewBurnBlockEvents`) and transaction scope -/

/-- Modelled from the spec: the `/new_burn_block` payload shape and
`parseBurnBlockMessage` live in the event-stream collaborator, outside the
visible sources.  Per spec §3/§6 a burn-block message carries the burn block
hash and height plus a rewards list and a slot-holders list; individual reward
and slot-holder entries are kept abstract as opaque strings, since the phase
consults only their count and forwards them whole. -/
structure CoreNodeBurnBlockMessage where
  burn_block_hash : String
  burn_block_height : Nat
  rewards : List String
  slotHolders : List String
deriving Repr, DecidableEq

/-- One row of the `burnchain_rewards` table. -/
structure BurnchainRewardRow where
  burnchainBlockHash : String
  burnchainBlockHeight : Nat
  reward : String
deriving Repr, DecidableEq

/-- One row of the `reward_slot_holders` table. -/
structure RewardSlotHolderRow where
  burnchainBlockHash : String
  burnchainBlockHeight : Nat
  slotHolder : String
deriving Repr, DecidableEq

/-- The storage state touched by the burn-block phase: its two target tables
and whether their indexes/constraints are enabled. -/
structure BurnDbState where
  burnchainRewards : List BurnchainRewardRow
  rewardSlotHolders : List RewardSlotHolderRow
  indexesEnabled : Bool
deriving Repr, DecidableEq

/-- `db.updateBurnchainRewards` with `skipReorg: true`: append one row per
reward of the message. -/
def updateBurnchainRewards (msg : CoreNodeBurnBlockMessage) (s : BurnDbState) : BurnDbState :=
  { s with burnchainRewards := s.burnchainRewards
      ++ msg.rewards.map (fun r =>
        { burnchainBlockHash := msg.burn_block_hash
          burnchainBlockHeight := msg.burn_block_height
          reward := r }) }

/-- `db.updateBurnchainRewardSlotHolders` with `skipReorg: true`: append one
row per slot holder of the message. -/
def updateBurnchainRewardSlotHolders (msg : CoreNodeBurnBlockMessage) (s : BurnDbState) :
    BurnDbState :=
  { s with rewardSlotHolders := s.rewardSlotHolders
      ++ msg.slotHolders.map (fun h =>
        { burnchainBlockHash := msg.burn_block_hash
          burnchainBlockHeight := msg.burn_block_height
          slotHolder := h }) }

/-- The loop body of `insertNewBurnBlockEvents` for one parsed record: rewards
are inserted only when `rewards.length > 0`, slot holders only when
`slotHolders.length > 0`. -/
def processBurnBlockMsg (msg : CoreNodeBurnBlockMessage) (s : BurnDbState) : BurnDbState :=
  let s1 := if msg.rewards.length > 0 then updateBurnchainRewards msg s else s
  if msg.slotHolders.length > 0 then updateBurnchainRewardSlotHolders msg s1 else s1

/-- A phase aborts with `ParseError` when `JSON.parse` throws on a record
payload (modelled as a `none` payload). -/
inductive ParseError
  | malformedPayload
deriving Repr, DecidableEq

/-- `db.toggleTableIndexes` on the phase's tables, modelled as one flag. -/
def toggleTableIndexes (enabled : Bool) (s : BurnDbState) : BurnDbState :=
  { s with indexesEnabled := enabled }

/-- The body passed to `db.sql.begin` by a bulk-load phase, generic in the
state and parsed-message types: disable the target-table indexes, process every
record in order — a record whose payload does not parse throws, so no later
record is processed and nothing is skipped — and re-enable the indexes.  The
index toggles and all inserts run inside the one transaction body. -/
def phaseTxBody {S M : Type} (toggle : Bool → S → S) (process : M → S → S)
    (records : List (Option M)) (s : S) : Except ParseError S := do
  let s1 := toggle false s
  let s2 ← records.foldlM (fun acc rec =>
    match rec with
    | none => throw ParseError.malformedPayload
    | some msg => pure (process msg acc)) s1
  pure (toggle true s2)

/-- Modelled from the spec: `db.sql.begin` of the storage collaborator (spec
§5/§6/§7) commits the body's state changes, or rolls every change — schema
mutations included — back when the body throws. -/
def runTransaction {S : Type} (body : S → Except ParseError S) (s : S) : S :=
  match body s with
  | .ok s1 => s1
  | .error _ => s

/-- `insertNewBurnBlockEvents`: one transaction over the `/new_burn_block`
records. -/
def insertNewBurnBlockEvents (records : List (Option CoreNodeBurnBlockMessage))
    (s : BurnDbState) : BurnDbState :=
  runTransaction (phaseTxBody toggleTableIndexes processBurnBlockMsg records) s

theorem foldlM_error_of_none {S M : Type} (records : List (Option M)) (process : M → S → S) :
    none ∈ records →
    ∀ s : S, records.foldlM (fun acc rec =>
        match rec with
        | none => throw ParseError.malformedPayload
        | some msg => pure (process msg acc)) s
      = (.error ParseError.malformedPayload : Except ParseError S) := by
  induction records with
  | nil => intro h; simp at h
  | cons r rest ih =>
    intro h s
    rcases r with _ | msg
    · rfl
    · have hrest : none ∈ rest := by
        rcases List.mem_cons.mp h with hc | hc
        · exact absurd hc (by simp)
        · exact hc
      simpa [List.foldlM_cons] using ih hrest (process msg s)

/-- C6.  A bulk-load phase runs its index-disabling, all its record inserts,
and its index re-enabling inside one storage transaction (`phaseTxBody`), and
a record whose payload fails to parse makes the whole body throw — the bad
record is not skipped — so the transaction aborts and the initial state, the
schema (index) state included, is fully restored: no row of the phase is
committed. -/
theorem phase_aborts_on_parse_error {S M : Type} (toggle : Bool → S → S)
    (process : M → S → S) (records : List (Option M)) (s : S)
    (h : none ∈ records) :
    (∀ s0 : S, phaseTxBody toggle process records s0 = .error ParseError.malformedPayload)
    ∧ runTransaction (phaseTxBody toggle process records) s = s := by
  have hbody : ∀ s0 : S,
      phaseTxBody toggle process records s0 = .error ParseError.malformedPayload := by
    intro s0
    simp only [phaseTxBody, foldlM_error_of_none records process h]
    rfl
  exact ⟨hbody, by unfold runTransaction; rw [hbody s]⟩

/-- C6 witness: a two-record burn-block phase whose second record is malformed
commits nothing and leaves the schema state untouched. -/
theorem phase_aborts_on_parse_error_witness :
    insertNewBurnBlockEvents
      [some { burn_block_hash := "0xbb", burn_block_height := 7,
              rewards := ["r1"], slotHolders := [] }, none]
      { burnchainRewards := [], rewardSlotHolders := [], indexesEnabled := true }
    = { burnchainRewards := [], rewardSlotHolders := [], indexesEnabled := true } :=
  (phase_aborts_on_parse_error toggleTableIndexes processBurnBlockMsg
    [some { burn_block_hash := "0xbb", burn_block_height := 7,
            rewards := ["r1"], slotHolders := [] }, none]
    { burnchainRewards := [], rewardSlotHolders := [], indexesEnabled := true }
    (by decide)).2

/-- C10.  In the burn-blocks phase, a record whose parsed message has an empty
rewards list makes no insert into `burnchain_rewards`, one with an empty
slot-holders list makes no insert into `reward_slot_holders`, and a record with
both lists empty leaves the storage state entirely unchanged. -/
theorem burnBlock_empty_lists_frame (msg : CoreNodeBurnBlockMessage) (s : BurnDbState) :
    (msg.rewards = [] →
      (processBurnBlockMsg msg s).burnchainRewards = s.burnchainRewards)
    ∧ (msg.slotHolders = [] →
      (processBurnBlockMsg msg s).rewardSlotHolders = s.rewardSlotHolders)
    ∧ (msg.rewards = [] → msg.slotHolders = [] → processBurnBlockMsg msg s = s) := by
  refine ⟨?_, ?_, ?_⟩
  · intro h
    unfold processBurnBlockMsg
    simp only [h]
    by_cases h2 : msg.slotHolders.length > 0 <;>
      simp [h2, updateBurnchainRewardSlotHolders]
  · intro h
    unfold processBurnBlockMsg
    simp only [h]
    by_cases h1 : msg.rewards.length > 0 <;>
      simp [h1, updateBurnchainRewards]
  · intro h1 h2
    unfold processBurnBlockMsg
    simp [h1, h2]

/-- C10 witness: a burn-block message with empty rewards and slot-holder lists
leaves a populated state unchanged. -/
theorem burnBlock_empty_lists_frame_witness :
    processBurnBlockMsg
      { burn_block_hash := "0xcc", burn_block_height := 9, rewards := [], slotHolders := [] }
      { burnchainRewards := [{ burnchainBlockHash := "0xbb", burnchainBlockHeight := 7,
                               reward := "r1" }],
        rewardSlotHolders := [], indexesEnabled := false }
    = { burnchainRewards := [{ burnchainBlockHash := "0xbb", burnchainBlockHeight := 7,
                               reward := "r1" }],
        rewardSlotHolders := [], indexesEnabled := false } :=
  (burnBlock_empty_lists_frame
    { burn_block_hash := "0xcc", burn_block_height := 9, rewards := [], slotHolders := [] }
    { burnchainRewards := [{ burnchainBlockHash := "0xbb", burnchainBlockHeight := 7,
                             reward := "r1" }],
      rewardSlotHolders := [], indexesEnabled := false }).2.2 rfl rfl

/-! ## Progress reporting (`lastStatusUpdatePercent` logic of every phase) -/

/-- One progress check, common to all four phases: a log entry is emitted when
`(readLineCount / tsvLineCount) * 100 > lastStatusUpdatePercent + 20`, and
`lastStatusUpdatePercent` is then set to
`Math.floor((readLineCount / tsvLineCount) * 100)`.  Exact rational arithmetic
replaces JavaScript doubles: the comparison becomes
`100 * readLineCount > tsvLineCount * (last + 20)` and the floor becomes `Nat`
division. -/
def progressStep (tsvLineCount : Nat) (acc : Nat × List Nat) (readLineCount : Nat) :
    Nat × List Nat :=
  if 100 * readLineCount > tsvLineCount * (acc.1 + 20) then
    ((100 * readLineCount) / tsvLineCount, acc.2 ++ [(100 * readLineCount) / tsvLineCount])
  else acc

/-- The logged percentages for one phase, starting from
`lastStatusUpdatePercent = 0`, given the `readLineCount` of each processed
record in stream order. -/
def progressLogs (tsvLineCount : Nat) (reads : List Nat) : List Nat :=
  (reads.foldl (progressStep tsvLineCount) (0, [])).2

theorem progressStep_invariant (T : Nat) (hT : 0 < T) (r : Nat) (hr : r ≤ T)
    (last : Nat) (logs : List Nat)
    (h1 : ∀ p ∈ logs, 20 ≤ p ∧ p ≤ 100)
    (h2 : List.Chain' (fun p q => p + 20 ≤ q) logs)
    (h3 : logs = [] → last = 0)
    (h4 : ∀ p, logs.getLast? = some p → p = last)
    (h5 : last ≤ 100) :
    (∀ p ∈ (progressStep T (last, logs) r).2, 20 ≤ p ∧ p ≤ 100)
    ∧ List.Chain' (fun p q => p + 20 ≤ q) (progressStep T (last, logs) r).2
    ∧ ((progressStep T (last, logs) r).2 = [] → (progressStep T (last, logs) r).1 = 0)
    ∧ (∀ p, (progressStep T (last, logs) r).2.getLast? = some p →
        p = (progressStep T (last, logs) r).1)
    ∧ (progressStep T (last, logs) r).1 ≤ 100 := by
  unfold progressStep
  by_cases hcond : 100 * r > T * (last + 20)
  · simp only [hcond, if_true]
    have hge : last + 20 ≤ (100 * r) / T := by
      rw [Nat.le_div_iff_mul_le hT, Nat.mul_comm]
      omega
    have hle : (100 * r) / T ≤ 100 := by
      apply Nat.div_le_of_le_mul
      calc 100 * r ≤ 100 * T := by omega
        _ = T * 100 := by ring
    refine ⟨?_, ?_, ?_, ?_, hle⟩
    · intro p hp
      rcases List.mem_append.mp hp with hp | hp
      · exact h1 p hp
      · simp only [List.mem_singleton] at hp
        subst hp
        exact ⟨by omega, hle⟩
    · rw [List.chain'_append]
      refine ⟨h2, List.chain'_singleton _, ?_⟩
      intro p hp y hy
      simp only [List.head?_cons, Option.mem_def, Option.some.injEq] at hy
      subst hy
      have hpl : p = last := h4 p hp
      subst hpl
      exact hge
    · intro habs
      simp at habs
    · intro p hp
      rw [List.getLast?_concat] at hp
      exact (by simpa using hp : 100 * r / T = p).symm
  · simp only [hcond, if_false]
    exact ⟨h1, h2, h3, h4, h5⟩

theorem progressLogs_invariant (T : Nat) (hT : 0 < T) (reads : List Nat)
    (hr : ∀ r ∈ reads, r ≤ T) :
    (∀ p ∈ progressLogs T reads, 20 ≤ p ∧ p ≤ 100)
    ∧ List.Chain' (fun p q => p + 20 ≤ q) (progressLogs T reads) := by
  suffices h : ∀ (rest : List Nat), (∀ r ∈ rest, r ≤ T) →
      ∀ (last : Nat) (logs : List Nat),
      (∀ p ∈ logs, 20 ≤ p ∧ p ≤ 100) →
      List.Chain' (fun p q => p + 20 ≤ q) logs →
      (logs = [] → last = 0) →
      (∀ p, logs.getLast? = some p → p = last) →
      last ≤ 100 →
      (∀ p ∈ (rest.foldl (progressStep T) (last, logs)).2, 20 ≤ p ∧ p ≤ 100)
      ∧ List.Chain' (fun p q => p + 20 ≤ q) (rest.foldl (progressStep T) (last, logs)).2 by
    have := h reads hr 0 [] (by simp) (by simp) (by simp) (by simp) (by omega)
    exact ⟨this.1, this.2⟩
  intro rest
  induction rest with
  | nil =>
    intro _ last logs a b _ _ _
    exact ⟨a, b⟩
  | cons r rs ih =>
    intro hrs last logs h1 h2 h3 h4 h5
    simp only [List.foldl_cons]
    obtain ⟨g1, g2, g3, g4, g5⟩ :=
      progressStep_invariant T hT r (hrs r (by simp)) last logs h1 h2 h3 h4 h5
    have hstep : progressStep T (last, logs) r
        = ((progressStep T (last, logs) r).1, (progressStep T (last, logs) r).2) := rfl
    rw [hstep]
    exact ih (fun x hx => hrs x (by simp [hx])) _ _ g1 g2 g3 g4 g5

/-- Strictly fewer than `n` strictly increasing boundary indexes fit below `n`. -/
theorem length_le_of_pairwise_lt_of_bounds (l : List Nat) (h : List.Pairwise (· < ·) l)
    (hmem : ∀ x ∈ l, x ∈ Finset.Icc 1 5) : l.length ≤ 5 := by
  have hnd : l.Nodup := h.imp Nat.ne_of_lt
  have h1 : l.toFinset.card = l.length := List.toFinset_card_of_nodup hnd
  have h2 : l.toFinset ⊆ Finset.Icc 1 5 := by
    intro x hx
    exact hmem x (List.mem_toFinset.mp hx)
  have := Finset.card_le_card h2
  simp only [Nat.card_Icc] at this
  omega

/-- C7 (amended).  For total line count `T > 0` and record line counts bounded
by `T`, the logged percentages produced by `progressLogs`: are each between 20
and 100, grow by at least 20 points from one entry to the next, fall in
pairwise distinct 20-point boundary blocks (`p / 20` strictly increases, so no
boundary is logged more than once), and number at most five.  The original
claim's "exactly once per crossed boundary" is false: a record crossing
several 20-point boundaries at once produces a single entry, and a boundary
reached without strictly exceeding the previous logged floor by more than 20
points — the 100% boundary under single-line increments in particular —
produces none (see the counterexample). -/
theorem progress_boundaries_at_most_once (T : Nat) (hT : 0 < T) (reads : List Nat)
    (hr : ∀ r ∈ reads, r ≤ T) :
    (∀ p ∈ progressLogs T reads, 20 ≤ p ∧ p ≤ 100)
    ∧ List.Chain' (fun p q => p + 20 ≤ q) (progressLogs T reads)
    ∧ List.Pairwise (fun p q => p / 20 < q / 20) (progressLogs T reads)
    ∧ (progressLogs T reads).length ≤ 5 := by
  obtain ⟨h1, h2⟩ := progressLogs_invariant T hT reads hr
  haveI : IsTrans Nat (fun p q => p + 20 ≤ q) := ⟨fun a b c hab hbc => by omega⟩
  have hpw : List.Pairwise (fun p q => p + 20 ≤ q) (progressLogs T reads) :=
    List.chain'_iff_pairwise.mp h2
  have hdiv : List.Pairwise (fun p q => p / 20 < q / 20) (progressLogs T reads) := by
    apply hpw.imp
    intro a b hab
    have ha1 : (a + 20) / 20 = a / 20 + 1 := Nat.add_div_right a (by omega)
    have ha2 : (a + 20) / 20 ≤ b / 20 := Nat.div_le_div_right hab
    omega
  refine ⟨h1, h2, hdiv, ?_⟩
  have hlen : ((progressLogs T reads).map (fun p => p / 20)).length ≤ 5 := by
    apply length_le_of_pairwise_lt_of_bounds
    · rw [List.pairwise_map]
      exact hdiv
    · intro x hx
      rcases List.mem_map.mp hx with ⟨p, hp, rfl⟩
      obtain ⟨hp1, hp2⟩ := h1 p hp
      rw [Finset.mem_Icc]
      constructor
      · have := Nat.div_le_div_right (c := 20) hp1
        simpa using this
      · have := Nat.div_le_div_right (c := 20) hp2
        simpa using this
  simpa using hlen

/-- C7 witness: ten records of one line each over a ten-line file log the
percentages 30, 60 and 90, each in a distinct 20-point block, at most five. -/
theorem progress_boundaries_at_most_once_witness :
    progressLogs 10 [1, 2, 3, 4, 5, 6, 7, 8, 9, 10] = [30, 60, 90]
    ∧ List.Pairwise (fun p q => p / 20 < q / 20)
        (progressLogs 10 [1, 2, 3, 4, 5, 6, 7, 8, 9, 10])
    ∧ (progressLogs 10 [1, 2, 3, 4, 5, 6, 7, 8, 9, 10]).length ≤ 5 := by
  have h := progress_boundaries_at_most_once 10 (by decide)
    [1, 2, 3, 4, 5, 6, 7, 8, 9, 10] (by decide)
  exact ⟨by decide, h.2.2.1, h.2.2.2⟩

/-- C7 counterexample: with `tsvLineCount = 10` and monotonically increasing
`readLineCount` values `1..10` reaching 100%, all five boundaries
20/40/60/80/100 are crossed but only three log entries are emitted (at 30, 60
and 90 percent); in particular the 100% boundary is never logged because the
strict comparison `pct > last + 20` fails at `last = 90`. -/
theorem progress_exactly_once_counterexample :
    progressLogs 10 [1, 2, 3, 4, 5, 6, 7, 8, 9, 10] = [30, 60, 90]
    ∧ ¬ (progressLogs 10 [1, 2, 3, 4, 5, 6, 7, 8, 9, 10]).length = 5 := by
  refine ⟨by decide, by decide⟩

/-! ## Orchestrator (`preOrgTsvImport`): phase ordering -/

/-- The four bulk-load phases in the order `preOrgTsvImport` awaits them. -/
inductive Phase
  | burnBlocks
  | attachments
  | rawEvents
  | newBlocks
deriving Repr, DecidableEq

/-- Position of a phase in the fixed await order of `preOrgTsvImport`
lines 91–94. -/
def phaseOrder : Phase → Nat
  | .burnBlocks => 0
  | .attachments => 1
  | .rawEvents => 2
  | .newBlocks => 3

/-- Observable storage interactions of one phase, tagged with the phase that
performs them. -/
inductive PhaseEvent (M : Type)
  | txBegin (p : Phase)
  | toggleIndexesOff (p : Phase)
  | insertRecord (p : Phase) (m : M)
  | toggleIndexesOn (p : Phase)
  | txCommit (p : Phase)
deriving Repr, DecidableEq

/-- The phase an event belongs to. -/
def PhaseEvent.phase {M : Type} : PhaseEvent M → Phase
  | .txBegin p => p
  | .toggleIndexesOff p => p
  | .insertRecord p _ => p
  | .toggleIndexesOn p => p
  | .txCommit p => p

/-- The interaction trace of one bulk-load phase (the common shape of
`insertNewBurnBlockEvents`, `insertNewAttachmentEvents`, `insertRawEvents` and
`insertNewBlockEvents`): one transaction wrapping the index disabling, the
per-record inserts in stream order, and the index re-enabling. -/
def phaseTrace {M : Type} (p : Phase) (records : List M) : List (PhaseEvent M) :=
  [.txBegin p, .toggleIndexesOff p]
    ++ records.map (PhaseEvent.insertRecord p)
    ++ [.toggleIndexesOn p, .txCommit p]

/-- `preOrgTsvImport` lines 91–94: the four phases are awaited one after the
other, in the fixed order burn-blocks, attachments, raw events, new-blocks. -/
def preOrgTsvImport {M : Type} (burnRecs attachRecs rawRecs newBlockRecs : List M) :
    List (PhaseEvent M) :=
  phaseTrace .burnBlocks burnRecs
    ++ phaseTrace .attachments attachRecs
    ++ phaseTrace .rawEvents rawRecs
    ++ phaseTrace .newBlocks newBlockRecs

theorem phaseTrace_phase {M : Type} (p : Phase) (records : List M) :
    ∀ e ∈ phaseTrace p records, e.phase = p := by
  intro e he
  simp only [phaseTrace, List.mem_append, List.mem_cons, List.mem_singleton,
    List.mem_map] at he
  rcases he with ((rfl | rfl | h) | ⟨m, _, rfl⟩) | (rfl | rfl | h) <;>
    first
      | rfl
      | simp at h

theorem phaseTrace_getLast {M : Type} (p : Phase) (records : List M) :
    (phaseTrace p records).getLast? = some (.txCommit p) := by
  have h : phaseTrace p records
      = ([PhaseEvent.txBegin p, PhaseEvent.toggleIndexesOff p]
          ++ records.map (PhaseEvent.insertRecord p) ++ [PhaseEvent.toggleIndexesOn p])
        ++ [PhaseEvent.txCommit p] := by
    simp [phaseTrace]
  rw [h, List.getLast?_concat]

/-- C8.  In the orchestrator's interaction trace, events are sorted by the
fixed phase order (burn-blocks, attachments, raw events, new-blocks); every
phase's events are exactly those of its own `phaseTrace`, whose final event is
its transaction commit — hence no insert of a later phase occurs before an
earlier phase's transaction has completed: whenever the trace holds an insert
of phase `p` at position `i` and the commit of a strictly earlier phase `q` at
position `j`, then `j < i`. -/
theorem preOrgTsvImport_phases_sequential {M : Type}
    (burnRecs attachRecs rawRecs newBlockRecs : List M) :
    (preOrgTsvImport burnRecs attachRecs rawRecs newBlockRecs).Pairwise
      (fun e1 e2 => phaseOrder e1.phase ≤ phaseOrder e2.phase)
    ∧ (∀ (i j : Fin (preOrgTsvImport burnRecs attachRecs rawRecs newBlockRecs).length)
        (p q : Phase) (m : M),
        (preOrgTsvImport burnRecs attachRecs rawRecs newBlockRecs).get i
            = .insertRecord p m →
        (preOrgTsvImport burnRecs attachRecs rawRecs newBlockRecs).get j
            = .txCommit q →
        phaseOrder q < phaseOrder p → (j : Nat) < (i : Nat)) := by
  set tr := preOrgTsvImport burnRecs attachRecs rawRecs newBlockRecs with htr
  have hone : ∀ (p : Phase) (recs : List M),
      (phaseTrace p recs).Pairwise (fun e1 e2 => phaseOrder e1.phase ≤ phaseOrder e2.phase) := by
    intro p recs
    apply List.pairwise_of_forall_mem_list
    intro a ha b hb
    rw [phaseTrace_phase p recs a ha, phaseTrace_phase p recs b hb]
  have hcross : ∀ (p q : Phase) (r1 r2 : List M), phaseOrder p ≤ phaseOrder q →
      ∀ a ∈ phaseTrace p r1, ∀ b ∈ phaseTrace q r2,
        phaseOrder a.phase ≤ phaseOrder b.phase := by
    intro p q r1 r2 hpq a ha b hb
    rw [phaseTrace_phase p r1 a ha, phaseTrace_phase q r2 b hb]
    exact hpq
  have hsorted : tr.Pairwise (fun e1 e2 => phaseOrder e1.phase ≤ phaseOrder e2.phase) := by
    rw [htr]
    unfold preOrgTsvImport
    refine List.pairwise_append.mpr ⟨List.pairwise_append.mpr ⟨List.pairwise_append.mpr
      ⟨hone _ _, hone _ _, hcross _ _ _ _ (by decide)⟩, hone _ _, ?_⟩, hone _ _, ?_⟩
    · intro a ha b hb
      rcases List.mem_append.mp ha with ha | ha
      · exact hcross _ _ _ _ (by decide) a ha b hb
      · exact hcross _ _ _ _ (by decide) a ha b hb
    · intro a ha b hb
      rcases List.mem_append.mp ha with ha | ha
      · rcases List.mem_append.mp ha with ha | ha
        · exact hcross _ _ _ _ (by decide) a ha b hb
        · exact hcross _ _ _ _ (by decide) a ha b hb
      · exact hcross _ _ _ _ (by decide) a ha b hb
  refine ⟨hsorted, ?_⟩
  intro i j p q m hi hj hlt
  by_contra hcon
  push_neg at hcon
  rcases Nat.lt_or_ge (i : Nat) (j : Nat) with hij | hij
  · have := (List.pairwise_iff_get.mp hsorted) i j hij
    rw [hi, hj] at this
    simp only [PhaseEvent.phase] at this
    omega
  · have hji : (i : Nat) = (j : Nat) := by omega
    have : tr.get i = tr.get j := by
      congr 1
      exact Fin.ext hji
    rw [hi, hj] at this
    simp at this

/-- C8 witness: in the concrete trace with one burn-block record and one
new-block record, the burn-blocks commit (position 4) precedes the new-blocks
insert (position 15). -/
theorem preOrgTsvImport_phases_sequential_witness : (4 : Nat) < 15 :=
  (preOrgTsvImport_phases_sequential [0] [] [] [1]).2
    ⟨15, by decide⟩ ⟨4, by decide⟩ Phase.newBlocks Phase.burnBlocks 1
    (by decide) (by decide) (by decide)

/-! ## Artifact caching (`preOrgTsvImport` lines 51–79) -/

/-- The two side files consulted by `preOrgTsvImport`: the
`<source-path>.entitydata` cache and the `<source-path>-preorg` file.  The JSON
round-trip through the `.entitydata` file is modelled as storing the value
itself (spec §4.2: the serialized CanonicalIndex is read back in place of
re-scanning). -/
structure FsState (Index File : Type) where
  entitydataFile : Option Index
  preorgFile : Option File
deriving Repr, DecidableEq

/-- Outcome of the scan/reorg prefix of one `preOrgTsvImport` run: the entity
data used, whether the tsv scan ran, whether the preorg file was generated,
the preorg contents used, and the resulting file-system state. -/
structure ImportPrepResult (Index File : Type) where
  tsvEntityData : Index
  scannedTsv : Bool
  generatedPreorg : Bool
  preorgContent : File
  fs : FsState Index File
deriving Repr, DecidableEq

/-- Modelled from the spec: `getCanonicalEntityList` and the
`createTsvReorgStream` pipeline live in `tsv-pre-org.ts`, outside the visible
sources; they are taken as parameters — deterministic functions of the source
file (and entity data).  The prefix of `preOrgTsvImport` (lines 51–79): read
the `.entitydata` cache if it exists, otherwise scan and write it; use the
existing preorg file if it exists, otherwise generate and write it. -/
def preOrgTsvImportPrep {Src Index File : Type}
    (getCanonicalEntityList : Src → Index)
    (runReorgPipeline : Index → Src → File)
    (src : Src) (fs : FsState Index File) : ImportPrepResult Index File :=
  match fs.entitydataFile with
  | some d =>
    match fs.preorgFile with
    | some f =>
      { tsvEntityData := d, scannedTsv := false, generatedPreorg := false,
        preorgContent := f, fs := fs }
    | none =>
      let f := runReorgPipeline d src
      { tsvEntityData := d, scannedTsv := false, generatedPreorg := true,
        preorgContent := f, fs := { fs with preorgFile := some f } }
  | none =>
    let d := getCanonicalEntityList src
    match fs.preorgFile with
    | some f =>
      { tsvEntityData := d, scannedTsv := true, generatedPreorg := false,
        preorgContent := f, fs := { fs with entitydataFile := some d } }
    | none =>
      let f := runReorgPipeline d src
      { tsvEntityData := d, scannedTsv := true, generatedPreorg := true,
        preorgContent := f,
        fs := { entitydataFile := some d, preorgFile := some f } }

/-- C9.  Running the pipeline prefix twice on the same source file is
idempotent: the second run finds the `.entitydata` cache and performs no scan,
finds the `-preorg` file and performs no generation, uses the identical entity
data and identical preorg contents as the first run, and leaves the file
system unchanged. -/
theorem preOrgTsvImportPrep_idempotent {Src Index File : Type}
    (getCanonicalEntityList : Src → Index) (runReorgPipeline : Index → Src → File)
    (src : Src) (fs0 : FsState Index File) :
    (preOrgTsvImportPrep getCanonicalEntityList runReorgPipeline src
        (preOrgTsvImportPrep getCanonicalEntityList runReorgPipeline src fs0).fs).scannedTsv
      = false
    ∧ (preOrgTsvImportPrep getCanonicalEntityList runReorgPipeline src
        (preOrgTsvImportPrep getCanonicalEntityList runReorgPipeline src fs0).fs).generatedPreorg
      = false
    ∧ (preOrgTsvImportPrep getCanonicalEntityList runReorgPipeline src
        (preOrgTsvImportPrep getCanonicalEntityList runReorgPipeline src fs0).fs).tsvEntityData
      = (preOrgTsvImportPrep getCanonicalEntityList runReorgPipeline src fs0).tsvEntityData
    ∧ (preOrgTsvImportPrep getCanonicalEntityList runReorgPipeline src
        (preOrgTsvImportPrep getCanonicalEntityList runReorgPipeline src fs0).fs).preorgContent
      = (preOrgTsvImportPrep getCanonicalEntityList runReorgPipeline src fs0).preorgContent
    ∧ (preOrgTsvImportPrep getCanonicalEntityList runReorgPipeline src
        (preOrgTsvImportPrep getCanonicalEntityList runReorgPipeline src fs0).fs).fs
      = (preOrgTsvImportPrep getCanonicalEntityList runReorgPipeline src fs0).fs := by
  rcases fs0 with ⟨_ | d, _ | f⟩ <;>
    simp [preOrgTsvImportPrep]
